import Mathlib

/-!
Verification of the signal alignment and fragmentation pipeline
(`preprocessing.py` and `tools.py`).

Numeric columns are modelled over `ℚ` (exact arithmetic stand-in for the
double-precision values of the source); cells that can hold NaN are
modelled as `Option ℚ`, with `none` playing the role of NaN.  Division by
zero, which in floating point produces a non-finite value, is outside the
exact model: the operations below return `none` in that case and every
theorem that depends on a quotient carries a nonzero-denominator
hypothesis, so this modelling choice is never load-bearing.
-/

/-- First index of the maximum of a list, scanning left to right and
updating only on a strictly larger value — the behaviour of
`numpy.argmax`.  `bv` is the best value so far, `i` the index of the next
element, `best` the index of the best value so far. -/
def argmaxFrom (bv : ℚ) (i best : ℕ) : List ℚ → ℕ
  | [] => best
  | x :: xs => if bv < x then argmaxFrom x (i + 1) i xs else argmaxFrom bv (i + 1) best xs

/-- Model of `numpy.argmax` on a list of rationals: index of the first occurrence of
the maximum (0 on the empty list, which numpy rejects; never reached by the
theorems below). -/
def npArgmax : List ℚ → ℕ
  | [] => 0
  | x :: xs => argmaxFrom x 1 0 xs

/-- Entry `j` of `numpy.correlate` in full mode:
`c[j] = ∑ₙ a[n + j - (len v - 1)] * v[n]` over the indices where both
factors are in range (out-of-range `a` accesses contribute `0` via `getD`). -/
def ccEntry (a v : List ℚ) (j : ℕ) : ℚ :=
  ∑ n ∈ Finset.range v.length,
    if v.length ≤ n + j + 1 then a.getD (n + j + 1 - v.length) 0 * v.getD n 0 else 0

/-- Model of `numpy.correlate` in full mode: the full cross-correlation,
of length `len a + len v - 1`. -/
def crossCorrFull (a v : List ℚ) : List ℚ :=
  (List.range (a.length + v.length - 1)).map (ccEntry a v)

/-- Autocorrelation of `a` at non-negative sample lag `d`:
`∑ₘ a[m] * a[m+d]` over the `len a - d` overlapping positions. -/
def lagSum (a : List ℚ) (d : ℕ) : ℚ :=
  ∑ m ∈ Finset.range (a.length - d), a.getD m 0 * a.getD (m + d) 0

/-- Model of `preprocessing.find_lag`: cross-correlate `pos_cmd` with `pos_mes`,
take the first argmax, subtract `len(pos_mes) - 1`, and take the absolute
value to obtain the sample delay; the time delay is `t[idx] - t[0]` read
from the time column of the series itself (`df.loc` on the dense index is list
indexing; the pipeline guarantees `idx` is in range). -/
def find_lag (t pos_cmd pos_mes : List ℚ) : ℚ × ℕ :=
  let idx : ℕ := ((npArgmax (crossCorrFull pos_cmd pos_mes) : ℤ) - pos_mes.length + 1).natAbs
  (t.getD idx 0 - t.getD 0 0, idx)

/-- Model of `tools.DataFramePlus._lag`: same cross-correlation, but the centre
offset subtracted from the argmax is `len(self[col2])` (no `- 1`). -/
def DataFramePlus.lag (col1 col2 : List ℚ) : ℕ :=
  ((npArgmax (crossCorrFull col1 col2) : ℤ) - col2.length).natAbs

/-- Model of `numpy.mean` of a non-empty column (on the empty column numpy yields
NaN; the `ℚ` convention `sum/0 = 0` is never relied on: theorems carry
non-emptiness hypotheses). -/
def mean (l : List ℚ) : ℚ := l.sum / l.length

/-- Model of `preprocessing.find_offset`: `np.mean(df[pos_mes]) - np.mean(df[pos_cmd])`. -/
def find_offset (pos_mes pos_cmd : List ℚ) : ℚ := mean pos_mes - mean pos_cmd

/-- Entry `i` of the central-difference column
`(y.shift(-1) - y.shift(1)) / (x.shift(-1) - x.shift(1))` of
`tools.DataFramePlus.dydx` and `preprocessing.find_derivatives`:
NaN (`none`) at the two boundary rows and whenever an operand is NaN.
A zero denominator produces a non-finite float in the source, which the
exact model cannot represent; it is mapped to `none`, and every theorem
touching that case assumes a nonzero denominator instead. -/
def derivEntry (x y : List (Option ℚ)) (i : ℕ) : Option ℚ :=
  if 1 ≤ i ∧ i + 1 < y.length then
    match x.getD (i + 1) none, x.getD (i - 1) none, y.getD (i + 1) none, y.getD (i - 1) none with
    | some x2, some x0, some y2, some y0 =>
        if x2 - x0 = 0 then none else some ((y2 - y0) / (x2 - x0))
    | _, _, _, _ => none
  else none

/-- The full central-difference derivative column of `y` with respect to `x`
(both columns of the same frame, hence of equal length). -/
def derivCol (x y : List (Option ℚ)) : List (Option ℚ) :=
  (List.range y.length).map (derivEntry x y)

/-- The indices (row labels) surviving `clean()` — `dropna` over the given
columns of an `n`-row frame followed by `reset_index`: a row survives iff
no cell in it is NaN. -/
def cleanRows (cols : List (List (Option ℚ))) (n : ℕ) : List ℕ :=
  (List.range n).filter (fun i => cols.all (fun c => (c.getD i none).isSome))

/-- The merged frame of `preprocessing.py`: the five columns produced by
`hdf5_to_df` plus the two measured-derivative columns added by
`find_derivatives` (empty until assigned). -/
structure Frame where
  t : List (Option ℚ)
  pos_cmd : List (Option ℚ)
  vel_cmd : List (Option ℚ)
  acc_cmd : List (Option ℚ)
  pos_mes : List (Option ℚ)
  vel_mes : List (Option ℚ)
  acc_mes : List (Option ℚ)
deriving DecidableEq, Repr

/-- The columns of a frame, in order. -/
def Frame.cols (f : Frame) : List (List (Option ℚ)) :=
  [f.t, f.pos_cmd, f.vel_cmd, f.acc_cmd, f.pos_mes, f.vel_mes, f.acc_mes]

/-- Model of `clean_data` and `DataFramePlus.clean`: drop every row containing a NaN
in any column, then reset the index to a dense 0-based range. -/
def cleanF (f : Frame) : Frame :=
  let keep := cleanRows f.cols f.t.length
  { t := keep.map (f.t.getD · none)
    pos_cmd := keep.map (f.pos_cmd.getD · none)
    vel_cmd := keep.map (f.vel_cmd.getD · none)
    acc_cmd := keep.map (f.acc_cmd.getD · none)
    pos_mes := keep.map (f.pos_mes.getD · none)
    vel_mes := keep.map (f.vel_mes.getD · none)
    acc_mes := keep.map (f.acc_mes.getD · none) }

/-- Model of `preprocessing.find_derivatives`: measured velocity as the central
difference of `pos_mes` w.r.t. `t`, measured acceleration as the central
difference of the freshly assigned `vel_mes` w.r.t. `t`, then `clean_data`. -/
def find_derivativesF (f : Frame) : Frame :=
  let vel := derivCol f.t f.pos_mes
  let acc := derivCol f.t vel
  cleanF { f with vel_mes := vel, acc_mes := acc }

/-- Model of `np.mean` over a frame column: NaN (`none`) when the column is empty or
contains a NaN. -/
def omean (l : List (Option ℚ)) : Option ℚ :=
  if l ≠ [] ∧ l.all (·.isSome) then some (mean (l.map (·.getD 0))) else none

/-- The offset-removal statement of `preprocess`:
`df[pos_mes] = df[pos_mes] - find_offset(df)`; subtracting a NaN offset
turns every cell into NaN. -/
def offsetStage (f : Frame) : Frame :=
  match (omean f.pos_mes).bind (fun x => (omean f.pos_cmd).map (fun y => x - y)) with
  | some off => { f with pos_mes := f.pos_mes.map (Option.map (· - off)) }
  | none => { f with pos_mes := f.pos_mes.map (fun _ => none) }

/-- Model of `Series.shift(-k)`: move values up by `k` rows, NaN-filling the tail. -/
def shiftNeg (k : ℕ) (l : List (Option ℚ)) : List (Option ℚ) :=
  (List.range l.length).map (fun i => if i + k < l.length then l.getD (i + k) none else none)

/-- The lag-removal statements of `preprocess`: compute the sample delay of
`find_lag`, shift the three measured columns by its negation, and clean.
`none` models the exceptions the source can raise here: `np.correlate` on
an empty column, and the `df.loc[idx_lag, t]` read of `find_lag` on a
miss (the read happens even though `preprocess` discards the time delay). -/
def lagStage (f : Frame) : Option Frame :=
  if f.pos_cmd = [] ∨ f.pos_mes = [] then none
  else
    let a := f.pos_cmd.map (·.getD 0)
    let v := f.pos_mes.map (·.getD 0)
    let idx := ((npArgmax (crossCorrFull a v) : ℤ) - v.length + 1).natAbs
    if f.t.length ≤ idx then none
    else some (cleanF { f with
      pos_mes := shiftNeg idx f.pos_mes
      vel_mes := shiftNeg idx f.vel_mes
      acc_mes := shiftNeg idx f.acc_mes })

/-- The final statement of `preprocess`: `df[t] = df[t] - df.loc[0, t]`;
`none` models the `KeyError` on an empty frame, and a NaN start time makes
the whole column NaN. -/
def rezeroStage (f : Frame) : Option Frame :=
  if f.t = [] then none
  else some { f with t := f.t.map (fun v => v.bind (fun q => (f.t.getD 0 none).map (q - ·))) }

/-- The time-rescaling statements of `preprocess`: `scaling_factor =
(1/freq_sample) / (t[1] - t[0])`, `df[t] *= scaling_factor`.  `none`
models the `KeyError` on a frame with fewer than two rows; a NaN or zero
initial spacing (non-finite scaling in floating point) is also outside the
exact model and mapped to `none`. -/
def scaleStage (freq_sample : ℚ) (f : Frame) : Option Frame :=
  if f.t.length < 2 then none
  else
    match f.t.getD 1 none, f.t.getD 0 none with
    | some t1, some t0 =>
        if t1 - t0 = 0 then none
        else some { f with t := f.t.map (Option.map (· * ((1 / freq_sample) / (t1 - t0)))) }
    | _, _ => none

/-- Model of `preprocessing.preprocess`: rescale time, derive measured velocity and
acceleration, remove the mean offset, remove the cross-correlation lag, and
re-zero the time column.  `none` models a raised exception. -/
def preprocess (freq_sample : ℚ) (f : Frame) : Option Frame :=
  (scaleStage freq_sample f).bind (fun f1 =>
    (lagStage (offsetStage (find_derivativesF f1))).bind rezeroStage)

/-- The loop body of `preprocessing.find_zero`: `prev` is the previous
element (initially `0`), `idx` the index of the next element; an index is
recorded exactly when `previous * element < 0`. -/
def find_zeroAux (prev : ℚ) (idx : ℕ) : List ℚ → List ℕ
  | [] => []
  | x :: rest => (if prev * x < 0 then [idx] else []) ++ find_zeroAux x (idx + 1) rest

/-- Model of `preprocessing.find_zero`: the indices at which `vel_cmd` changes sign
(product of consecutive entries strictly negative). -/
def find_zero (vel_cmd : List ℚ) : List ℕ := find_zeroAux 0 0 vel_cmd

/-- Model of `preprocessing.createinterval`: for each crossing index `zeros[j]` with
`j < len(zeros) - 2`, the index list `range(zeros[j], zeros[j+2])`. -/
def createinterval (vel_cmd : List ℚ) : List (List ℕ) :=
  let zeros := find_zero vel_cmd
  (List.range (zeros.length - 2)).map (fun j =>
    List.range' (zeros.getD j 0) (zeros.getD (j + 2) 0 - zeros.getD j 0))

/-- One iteration of the `fragment_by_iteration` loop at upper bound `u`:
call the predicate on the current window, and on a split record the window
`[new_l_bound, u)` (the source appends `self[l_bound:u_bound]` after
reassigning `l_bound` to the value returned by the predicate) and restart at `u`.
The predicate of the source receives the slice `self[l_bound:u_bound]` and
`l_bound`; over a fixed frame it is abstracted as a function of the two
bounds. -/
def fragStep (func : ℕ → ℕ → ℕ × Bool) (st : ℕ × List (ℕ × ℕ)) (u : ℕ) :
    ℕ × List (ℕ × ℕ) :=
  let (l, frags) := st
  let (l2, flag) := func l u
  if flag then (u, frags ++ [(l2, u)]) else (l2, frags)

/-- Model of `tools.DataFramePlus.fragment_by_iteration` on a frame with dense
0-based index and `n` rows: `l_bound` starts at `0`, `u_bound` runs from
`1` while `u_bound ≤ n - 1` and advances by one per iteration.  Fragments
are recorded as `(start, stop)` index windows (the source slices
`self[start:stop]`, i.e. rows `start, …, stop - 1`). -/
def fragment_by_iteration (func : ℕ → ℕ → ℕ × Bool) (n : ℕ) : List (ℕ × ℕ) :=
  ((List.range' 1 (n - 1)).foldl (fragStep func) (0, [])).2

/-- The rows of `self[mask]` paired with their `(~mask).cumsum()` key:
`i` is the index of the next row, `c` the running count of false-mask rows. -/
def maskFragAux (i c : ℕ) : List Bool → List (ℕ × ℕ)
  | [] => []
  | true :: rest => (i, c) :: maskFragAux (i + 1) c rest
  | false :: rest => maskFragAux (i + 1) (c + 1) rest

/-- Pandas `groupby` over the key of `maskFragAux`: the key column is
non-decreasing, so the pandas group-by-equal-keys is grouping of adjacent
rows with equal keys. -/
def gather : List (ℕ × ℕ) → List (List ℕ)
  | [] => []
  | (i, k) :: rest =>
    match rest with
    | [] => [[i]]
    | (_, k2) :: _ =>
      match gather rest with
      | [] => [[i]]
      | g :: gs => if k2 = k then (i :: g) :: gs else [i] :: g :: gs

/-- Model of `tools.DataFramePlus.fragment_by_mask` on a mask of one boolean per
row: group the true-mask rows of the frame by the cumulative count of
false-mask rows; each fragment is recorded as its list of source indices. -/
def fragment_by_mask (mask : List Bool) : List (List ℕ) :=
  gather (maskFragAux 0 0 mask)

/-- Modelled from the spec: the maximal runs of consecutive true-mask rows,
as source-index lists in source order — `i` is the index of the current
row; a true row opens a fragment that extends exactly while the following
rows stay true. -/
def specRuns (i : ℕ) : List Bool → List (List ℕ)
  | [] => []
  | false :: rest => specRuns (i + 1) rest
  | true :: rest =>
    match rest with
    | true :: _ =>
      match specRuns (i + 1) rest with
      | [] => [[i]]
      | g :: gs => (i :: g) :: gs
    | _ => [i] :: specRuns (i + 1) rest

/-- A maneuver descriptor as extracted by `extract_data_function`:
`[time, Tfade, Ttotal, omg, gain, phi0, axis]`. -/
structure Desc where
  time : ℚ
  Tfade : ℚ
  Ttotal : ℚ
  omg : List ℚ
  gain : ℚ
  phi0 : ℚ
  axis : String
deriving DecidableEq, Repr

/-- Rounding to an integer as Python `round`: round half to even. -/
def pyRound (x : ℚ) : ℤ :=
  let f := ⌊x⌋
  if x - f < 1 / 2 then f
  else if 1 / 2 < x - f then f + 1
  else if Even f then f else f + 1

/-- Rounding as Python `round(x, 6)`: round half to even at six decimal places
(the source rounds exact decimal arithmetic in this model). -/
def round6 (x : ℚ) : ℚ := (pyRound (x * 10 ^ 6) : ℚ) / 10 ^ 6

/-- Model of `preprocessing.time_conversion`: a window
`[Tfade + time, Ttotal + time - Tfade]` per descriptor (the branch on
`len(omg) == 1` has identical arms), then every entry is multiplied by
`10 ** -4` and rounded to six decimal places. -/
def time_conversion (extracted_data : List Desc) : List (List ℚ) :=
  let time_stamps := extracted_data.map (fun d =>
    if d.omg.length = 1 then
      [d.Tfade + d.time, d.Ttotal + d.time - d.Tfade]
    else
      [d.Tfade + d.time, d.Ttotal + d.time - d.Tfade])
  time_stamps.map (fun sublist => sublist.map (fun entry => round6 (entry * (1 / 10 ^ 4))))

/-- A five-valid-row input frame: integer tick times, identical linear
commanded and measured positions, zero commanded velocity/acceleration. -/
def frameC4 : Frame where
  t := [some 0, some 1, some 2, some 3, some 4]
  pos_cmd := [some 0, some 1, some 2, some 3, some 4]
  vel_cmd := [some 0, some 0, some 0, some 0, some 0]
  acc_cmd := [some 0, some 0, some 0, some 0, some 0]
  pos_mes := [some 0, some 1, some 2, some 3, some 4]
  vel_mes := []
  acc_mes := []

/-- The frame `frameC4` after time rescaling at 100 Hz (scaling factor `1/100`). -/
def frameC4s : Frame :=
  { frameC4 with t := [some 0, some (1 / 100), some (1 / 50), some (3 / 100), some (1 / 25)] }

/-- The frame `frameC4s` after `find_derivatives`: a single surviving row. -/
def frameC4mid : Frame where
  t := [some (1 / 50)]
  pos_cmd := [some 2]
  vel_cmd := [some 0]
  acc_cmd := [some 0]
  pos_mes := [some 2]
  vel_mes := [some 100]
  acc_mes := [some 0]

/-- A commanded-velocity series of 130 samples with sign changes at
indices 10, 40, 70 and 100. -/
def velC6 : List ℚ :=
  List.replicate 10 1 ++ List.replicate 30 (-1) ++ List.replicate 30 1 ++
    List.replicate 30 (-1) ++ List.replicate 30 1

/-- A descriptor list: two faded-sine maneuvers. -/
def descListA : List Desc :=
  [{ time := 1, Tfade := 2, Ttotal := 10, omg := [3], gain := 5, phi0 := 6, axis := "x" },
   { time := 100, Tfade := 1, Ttotal := 7, omg := [1, 2, 3], gain := 0, phi0 := 0, axis := "y" }]

/-- The same times as `descListA` but different angular-frequency vectors
(of different lengths), gains, phases and axes. -/
def descListB : List Desc :=
  [{ time := 1, Tfade := 2, Ttotal := 10, omg := [9, 9], gain := 50, phi0 := 60, axis := "z" },
   { time := 100, Tfade := 1, Ttotal := 7, omg := [], gain := 4, phi0 := 4, axis := "x" }]

/-- A sample window predicate: never moves the lower bound, splits when the
upper bound is divisible by 3. -/
def splitEvery3 : ℕ → ℕ → ℕ × Bool := fun l u => (l, decide (u % 3 = 0))

/-- A concrete five-row strictly increasing valid column. -/
def xRampC3 : List (Option ℚ) := [some 0, some 1, some 2, some 3, some 4]

lemma argmaxFrom_of_lt (xs : List ℚ) : ∀ (bv : ℚ) (i best : ℕ),
    (∀ x ∈ xs, x < bv) → argmaxFrom bv i best xs = best := by
  induction xs with
  | nil => intro bv i best _; rfl
  | cons x rest ih =>
    intro bv i best h
    have hx : x < bv := h x (List.mem_cons_self x rest)
    rw [argmaxFrom, if_neg (by exact not_lt.mpr hx.le)]
    exact ih bv (i + 1) best (fun z hz => h z (List.mem_cons_of_mem x hz))

lemma argmaxFrom_strict (xs : List ℚ) : ∀ (bv : ℚ) (i best j : ℕ),
    j < xs.length → bv < xs.getD j 0 →
    (∀ k < xs.length, k ≠ j → xs.getD k 0 < xs.getD j 0) →
    argmaxFrom bv i best xs = i + j := by
  induction xs with
  | nil => intro bv i best j hj; exact absurd hj (by simp)
  | cons x rest ih =>
    intro bv i best j hj hbv hmax
    match j with
    | 0 =>
      have hx : bv < x := by simpa using hbv
      rw [argmaxFrom, if_pos hx]
      rw [argmaxFrom_of_lt]
      · omega
      · intro z hz
        obtain ⟨k, hk, rfl⟩ := List.mem_iff_getElem.mp hz
        have := hmax (k + 1) (by simpa using Nat.succ_lt_succ hk) (Nat.succ_ne_zero k)
        simpa [List.getD_cons_succ, List.getD_eq_getElem?_getD, List.getElem?_eq_getElem hk]
          using this
    | j' + 1 =>
      have hlen : j' < rest.length := by simpa using Nat.lt_of_succ_lt_succ hj
      have hxj : x < rest.getD j' 0 := by
        have := hmax 0 (Nat.succ_pos _) (Nat.succ_ne_zero j').symm
        simpa using this
      have hmax' : ∀ k < rest.length, k ≠ j' → rest.getD k 0 < rest.getD j' 0 := by
        intro k hk hkj
        have := hmax (k + 1) (by simpa using Nat.succ_lt_succ hk) (by omega)
        simpa using this
      rw [argmaxFrom]
      by_cases hbx : bv < x
      · rw [if_pos hbx]
        have := ih x (i + 1) i j' hlen hxj hmax'
        omega
      · rw [if_neg hbx]
        have hbv' : bv < rest.getD j' 0 := by simpa using hbv
        have := ih bv (i + 1) best j' hlen hbv' hmax'
        omega

lemma crossCorrFull_length (a v : List ℚ) :
    (crossCorrFull a v).length = a.length + v.length - 1 := by
  simp [crossCorrFull]

lemma crossCorrFull_getD (a v : List ℚ) (j : ℕ) (hj : j < a.length + v.length - 1) :
    (crossCorrFull a v).getD j 0 = ccEntry a v j := by
  rw [crossCorrFull, List.getD_eq_getElem?_getD, List.getElem?_map, List.getElem?_range hj]
  simp

/-- Autocorrelation at the centre of the full cross-correlation (right half):
entry `N - 1 + e` is the lag-`e` sum. -/
lemma ccEntry_auto_right (a : List ℚ) (e : ℕ) (hN : 1 ≤ a.length) :
    ccEntry a a (a.length - 1 + e) = lagSum a e := by
  rw [ccEntry, lagSum]
  have h1 : ∀ n, n + (a.length - 1 + e) + 1 = n + e + a.length := by omega
  have h2 : Finset.range (a.length - e) ⊆ Finset.range a.length :=
    Finset.range_subset.mpr (by omega)
  rw [← Finset.sum_subset h2]
  · apply Finset.sum_congr rfl
    intro n hn
    rw [if_pos (by omega)]
    rw [h1, Nat.add_sub_cancel, mul_comm]
  · intro n hn hn2
    rw [if_pos (by omega), h1, Nat.add_sub_cancel]
    have : a.length ≤ n + e := by
      simp only [Finset.mem_range] at hn hn2
      omega
    rw [List.getD_eq_default _ _ this, zero_mul]

/-- Autocorrelation at the centre of the full cross-correlation (left half):
entry `N - 1 - d` is also the lag-`d` sum. -/
lemma ccEntry_auto_left (a : List ℚ) (d : ℕ) (hd : d ≤ a.length - 1) (hN : 1 ≤ a.length) :
    ccEntry a a (a.length - 1 - d) = lagSum a d := by
  rw [ccEntry, lagSum]
  have key : ∀ n ∈ Finset.range a.length,
      (if a.length ≤ n + (a.length - 1 - d) + 1 then
        a.getD (n + (a.length - 1 - d) + 1 - a.length) 0 * a.getD n 0 else 0) =
      (if d ≤ n then a.getD (n - d) 0 * a.getD n 0 else 0) := by
    intro n _
    by_cases hn : d ≤ n
    · rw [if_pos (by omega), if_pos hn]
      congr 2
      omega
    · rw [if_neg (by omega), if_neg hn]
  rw [Finset.sum_congr rfl key]
  nth_rewrite 1 [Finset.range_eq_Ico]
  rw [← Finset.sum_Ico_consecutive _ (Nat.zero_le d) (by omega : d ≤ a.length)]
  have left0 : ∑ n ∈ Finset.Ico 0 d, (if d ≤ n then a.getD (n - d) 0 * a.getD n 0 else 0) = 0 := by
    apply Finset.sum_eq_zero
    intro n hn
    simp only [Finset.mem_Ico] at hn
    rw [if_neg (by omega)]
  rw [left0, zero_add]
  rw [Finset.sum_Ico_eq_sum_range]
  apply Finset.sum_congr rfl
  intro i _
  rw [if_pos (by omega)]
  congr 2
  · omega
  · omega

/-- Arithmetic-mean bound `x * y ≤ (x² + y²) / 2`. -/
lemma mul_le_half_sq (x y : ℚ) : x * y ≤ (x * x + y * y) / 2 := by
  nlinarith [sq_nonneg (x - y)]

/-- The zero-lag autocorrelation strictly dominates every positive-lag
autocorrelation of a column that is not identically zero. -/
lemma lagSum_lt (a : List ℚ) (d : ℕ) (hd : 1 ≤ d)
    (hnz : ∃ i, a.getD i 0 ≠ 0) : lagSum a d < lagSum a 0 := by
  classical
  set N := a.length with hN
  set p := Nat.find hnz with hp
  have hpne : a.getD p 0 ≠ 0 := Nat.find_spec hnz
  have hmin : ∀ q < p, a.getD q 0 = 0 := by
    intro q hq
    have := Nat.find_min hnz hq
    simpa using this
  have hpN : p < N := by
    by_contra hcon
    exact hpne (List.getD_eq_default _ _ (by omega))
  have hS : lagSum a 0 = ∑ m ∈ Finset.range N, a.getD m 0 * a.getD m 0 := by
    rw [lagSum]
    simp
  have hSqp : 0 < a.getD p 0 * a.getD p 0 := mul_self_pos.mpr hpne
  have hSpos : a.getD p 0 * a.getD p 0 ≤ lagSum a 0 := by
    rw [hS]
    exact Finset.single_le_sum (f := fun m => a.getD m 0 * a.getD m 0)
      (fun m _ => mul_self_nonneg _) (Finset.mem_range.mpr hpN)
  by_cases hcase : N - d ≤ p
  · -- every overlapping product has a vanishing left factor
    have hzero : lagSum a d = 0 := by
      rw [lagSum]
      apply Finset.sum_eq_zero
      intro m hm
      simp only [Finset.mem_range] at hm
      rw [hmin m (by omega), zero_mul]
    rw [hzero]
    exact lt_of_lt_of_le hSqp hSpos
  · push_neg at hcase
    -- restrict the sum to the indices at and after the first nonzero entry
    have hstep1 : lagSum a d = ∑ m ∈ Finset.Ico p (N - d), a.getD m 0 * a.getD (m + d) 0 := by
      rw [lagSum]
      refine (Finset.sum_subset ?_ ?_).symm
      · rw [Finset.range_eq_Ico]
        exact Finset.Ico_subset_Ico (Nat.zero_le p) le_rfl
      · intro m hm hm2
        simp only [Finset.mem_range, Finset.mem_Ico] at hm hm2
        rw [hmin m (by omega), zero_mul]
    have hstep2 : ∑ m ∈ Finset.Ico p (N - d), a.getD m 0 * a.getD (m + d) 0 ≤
        (∑ m ∈ Finset.Ico p (N - d), a.getD m 0 * a.getD m 0 +
         ∑ m ∈ Finset.Ico p (N - d), a.getD (m + d) 0 * a.getD (m + d) 0) / 2 := by
      rw [← Finset.sum_add_distrib, Finset.sum_div]
      exact Finset.sum_le_sum (fun m _ => mul_le_half_sq _ _)
    have hbound1 : ∑ m ∈ Finset.Ico p (N - d), a.getD m 0 * a.getD m 0 ≤ lagSum a 0 := by
      rw [hS]
      apply Finset.sum_le_sum_of_subset_of_nonneg
      · rw [Finset.range_eq_Ico]
        exact Finset.Ico_subset_Ico (Nat.zero_le p) (by omega)
      · intro m _ _
        exact mul_self_nonneg _
    have hshift : ∑ m ∈ Finset.Ico p (N - d), a.getD (m + d) 0 * a.getD (m + d) 0 =
        ∑ n ∈ Finset.Ico (p + d) N, a.getD n 0 * a.getD n 0 := by
      rw [Finset.sum_Ico_eq_sum_range, Finset.sum_Ico_eq_sum_range]
      have hlen : N - d - p = N - (p + d) := by omega
      rw [hlen]
      apply Finset.sum_congr rfl
      intro i _
      congr 2 <;> omega
    have hbound2 : ∑ n ∈ Finset.Ico (p + d) N, a.getD n 0 * a.getD n 0 ≤
        lagSum a 0 - a.getD p 0 * a.getD p 0 := by
      have herase : ∑ n ∈ (Finset.range N).erase p, a.getD n 0 * a.getD n 0 =
          lagSum a 0 - a.getD p 0 * a.getD p 0 := by
        rw [Finset.sum_erase_eq_sub (Finset.mem_range.mpr hpN), hS]
      rw [← herase]
      apply Finset.sum_le_sum_of_subset_of_nonneg
      · intro n hn
        simp only [Finset.mem_Ico] at hn
        exact Finset.mem_erase.mpr ⟨by omega, Finset.mem_range.mpr (by omega)⟩
      · intro m _ _
        exact mul_self_nonneg _
    have := hstep1
    nlinarith [hstep2, hbound1, hshift, hbound2, hSqp]
lemma npArgmax_strict (l : List ℚ) (j : ℕ) (hj : j < l.length)
    (hmax : ∀ k < l.length, k ≠ j → l.getD k 0 < l.getD j 0) : npArgmax l = j := by
  match l with
  | [] => exact absurd hj (by simp)
  | x :: rest =>
    rw [npArgmax]
    match j with
    | 0 =>
      rw [argmaxFrom_of_lt]
      intro z hz
      obtain ⟨k, hk, rfl⟩ := List.mem_iff_getElem.mp hz
      have := hmax (k + 1) (by simpa using Nat.succ_lt_succ hk) (Nat.succ_ne_zero k)
      simpa [List.getD_cons_succ, List.getD_eq_getElem?_getD, List.getElem?_eq_getElem hk]
        using this
    | j' + 1 =>
      have hlen : j' < rest.length := by simpa using Nat.lt_of_succ_lt_succ hj
      have hbv : x < rest.getD j' 0 := by
        have := hmax 0 (Nat.succ_pos _) (Nat.succ_ne_zero j').symm
        simpa using this
      have hmax' : ∀ k < rest.length, k ≠ j' → rest.getD k 0 < rest.getD j' 0 := by
        intro k hk hkj
        have := hmax (k + 1) (by simpa using Nat.succ_lt_succ hk) (by omega)
        simpa using this
      have := argmaxFrom_strict rest x 1 0 j' hlen hbv hmax'
      omega

/-- For a column with at least one nonzero entry, the full autocorrelation
attains its strict maximum at the centre index `N - 1`. -/
lemma npArgmax_autocorr (a : List ℚ) (hnz : ∃ x ∈ a, x ≠ 0) :
    npArgmax (crossCorrFull a a) = a.length - 1 := by
  have hex : ∃ i, a.getD i 0 ≠ 0 := by
    obtain ⟨x, hx, hxne⟩ := hnz
    obtain ⟨i, hi, rfl⟩ := List.mem_iff_getElem.mp hx
    exact ⟨i, by rwa [List.getD_eq_getElem?_getD, List.getElem?_eq_getElem hi]⟩
  have hN : 1 ≤ a.length := by
    obtain ⟨x, hx, _⟩ := hnz
    exact List.length_pos.mpr (List.ne_nil_of_mem hx)
  apply npArgmax_strict
  · rw [crossCorrFull_length]
    omega
  · intro k hk hkne
    rw [crossCorrFull_length] at hk
    rw [crossCorrFull_getD a a k hk, crossCorrFull_getD a a (a.length - 1) (by omega)]
    have hcenter : ccEntry a a (a.length - 1) = lagSum a 0 := by
      have := ccEntry_auto_right a 0 hN
      rwa [Nat.add_zero] at this
    rw [hcenter]
    by_cases hside : k < a.length - 1
    · have hk2 : k = a.length - 1 - (a.length - 1 - k) := by omega
      rw [hk2, ccEntry_auto_left a (a.length - 1 - k) (by omega) hN]
      exact lagSum_lt a _ (by omega) hex
    · have hk2 : k = a.length - 1 + (k - (a.length - 1)) := by omega
      rw [hk2, ccEntry_auto_right a _ hN]
      exact lagSum_lt a _ (by omega) hex

/-- C1 (counterexample): on a series whose commanded- and measured-position
columns are identical but identically zero, `find_lag` does not return
sample-delay 0 and time-delay 0 — the argmax of the all-zero
cross-correlation is its first index, giving sample delay `N - 1 = 1` and
time delay `t[1] - t[0] = 4`. -/
theorem find_lag_identical_zero_counterexample_c1 :
    find_lag [5, 9] [0, 0] [0, 0] = (4, 1) ∧ find_lag [5, 9] [0, 0] [0, 0] ≠ (0, 0) := by
  constructor
  · norm_num [find_lag, crossCorrFull, ccEntry, npArgmax, argmaxFrom, List.range_succ,
      Finset.sum_range_succ, List.getD]
  · norm_num [find_lag, crossCorrFull, ccEntry, npArgmax, argmaxFrom, List.range_succ,
      Finset.sum_range_succ, List.getD]

/-- C1 (amended): for every series whose commanded-position and
measured-position columns are identical and not identically zero, the lag
estimator `find_lag` returns sample-delay 0 and time-delay 0 (the sample
delay being `abs(argmax(cross_correlation_full(pos_cmd, pos_mes)) - (N - 1))`
and the time delay `t[sample_delay] - t[0]` by definition of `find_lag`). -/
theorem find_lag_identical_c1 (t a : List ℚ) (hnz : ∃ x ∈ a, x ≠ 0) :
    find_lag t a a = (0, 0) := by
  have hN : 1 ≤ a.length := by
    obtain ⟨x, hx, _⟩ := hnz
    exact List.length_pos.mpr (List.ne_nil_of_mem hx)
  have hidx : ((npArgmax (crossCorrFull a a) : ℤ) - a.length + 1).natAbs = 0 := by
    rw [npArgmax_autocorr a hnz]
    omega
  simp only [find_lag, hidx]
  simp

/-- C1 (witness): the amended theorem applied to the concrete identical
nonzero columns `[1, 2]` with time column `[3, 7]`. -/
theorem find_lag_identical_c1_witness :
    (∃ x ∈ ([1, 2] : List ℚ), x ≠ 0) ∧ find_lag [3, 7] [1, 2] [1, 2] = (0, 0) :=
  ⟨⟨1, by norm_num, by norm_num⟩, find_lag_identical_c1 [3, 7] [1, 2] ⟨1, by norm_num, by norm_num⟩⟩

/-- C2 (counterexample): the two lag implementations disagree on the
concrete identical columns `[1, 2]`: `find_lag` gives sample delay 0 while
`DataFramePlus._lag` gives 1. -/
theorem lag_disagree_counterexample_c2 :
    (find_lag [0, 1] [1, 2] [1, 2]).2 = 0 ∧ DataFramePlus.lag [1, 2] [1, 2] = 1 ∧
      (find_lag [0, 1] [1, 2] [1, 2]).2 ≠ DataFramePlus.lag [1, 2] [1, 2] := by
  refine ⟨?_, ?_, ?_⟩ <;>
    norm_num [find_lag, DataFramePlus.lag, crossCorrFull, ccEntry, npArgmax, argmaxFrom,
      List.range_succ, Finset.sum_range_succ, List.getD]

/-- C2 (amended): on every pair of columns the two near-duplicate lag
implementations differ by exactly one sample: the sample-index delay of
`preprocessing.find_lag` and the lag index of `tools.DataFramePlus._lag`
are never equal — their difference is always exactly 1 in absolute value,
because `_lag` subtracts `N` from the argmax where `find_lag` subtracts
`N - 1`. -/
theorem lag_implementations_differ_by_one_c2 (t col1 col2 : List ℚ) :
    (((find_lag t col1 col2).2 : ℤ) - (DataFramePlus.lag col1 col2 : ℤ)).natAbs = 1 := by
  simp only [find_lag, DataFramePlus.lag]
  omega

lemma sum_map_sub (l : List ℚ) (o : ℚ) :
    (l.map (fun v => v - o)).sum = l.sum - l.length * o := by
  induction l with
  | nil => simp
  | cons x rest ih =>
    simp only [List.map_cons, List.sum_cons, List.length_cons, ih]
    push_cast
    ring

/-- C5: the offset estimator returns `mean(pos_mes) - mean(pos_cmd)`
without mutating the series (it is a pure function of the two columns),
and subtracting the returned offset from `pos_mes` — as the alignment
pipeline does — yields a column whose mean equals `mean(pos_cmd)` exactly. -/
theorem find_offset_aligns_means_c5 (pos_mes pos_cmd : List ℚ)
    (h1 : pos_mes ≠ []) (h2 : pos_cmd ≠ []) :
    find_offset pos_mes pos_cmd = mean pos_mes - mean pos_cmd ∧
      mean (pos_mes.map (fun v => v - find_offset pos_mes pos_cmd)) = mean pos_cmd := by
  refine ⟨rfl, ?_⟩
  have hn : (pos_mes.length : ℚ) ≠ 0 := by
    have := List.length_pos.mpr h1
    positivity
  rw [mean, List.length_map, sum_map_sub, find_offset, sub_div, mul_comm, mul_div_assoc,
    div_self hn, mul_one]
  show mean pos_mes - (mean pos_mes - mean pos_cmd) = mean pos_cmd
  ring

/-- C5 (witness): the theorem applied to the concrete columns `[1, 2]`
and `[5]`. -/
theorem find_offset_aligns_means_c5_witness :
    (([1, 2] : List ℚ) ≠ [] ∧ ([5] : List ℚ) ≠ []) ∧
      mean (([1, 2] : List ℚ).map (fun v => v - find_offset [1, 2] [5])) = mean [5] :=
  ⟨⟨by simp, by simp⟩,
    (find_offset_aligns_means_c5 [1, 2] [5] (by simp) (by simp)).2⟩

lemma time_conversion_eq (extracted_data : List Desc) :
    time_conversion extracted_data = extracted_data.map (fun d =>
      [round6 ((d.Tfade + d.time) * (1 / 10 ^ 4)),
       round6 ((d.Ttotal + d.time - d.Tfade) * (1 / 10 ^ 4))]) := by
  simp only [time_conversion, List.map_map]
  apply List.map_congr_left
  intro d _
  by_cases h : d.omg.length = 1 <;> simp [h]

/-- C9: `time_conversion` maps each maneuver descriptor `(time, Tfade,
Ttotal, …)` to the window `[Tfade + time, Ttotal + time - Tfade]`, then
multiplies both endpoints by the fixed scale factor `10 ^ (-4)` and rounds
each to six decimal places (round half to even, as Python `round`). -/
theorem time_conversion_windows_c9 (extracted_data : List Desc) :
    time_conversion extracted_data = extracted_data.map (fun d =>
      [round6 ((d.Tfade + d.time) * (1 / 10 ^ 4)),
       round6 ((d.Ttotal + d.time - d.Tfade) * (1 / 10 ^ 4))]) :=
  time_conversion_eq extracted_data

/-- C10: `time_conversion` depends only on the `time`, `Tfade` and `Ttotal`
fields of the descriptors: two descriptor lists agreeing pointwise on those
three fields — but differing arbitrarily in the angular-frequency vector
(including its length), gain, phase or axis — produce identical window
lists, because the branch on the length of the angular-frequency vector has
identical arms. -/
theorem time_conversion_noninterference_c10 (d1 d2 : List Desc)
    (h : List.Forall₂ (fun a b => a.time = b.time ∧ a.Tfade = b.Tfade ∧ a.Ttotal = b.Ttotal)
      d1 d2) : time_conversion d1 = time_conversion d2 := by
  rw [time_conversion_eq, time_conversion_eq]
  induction h with
  | nil => rfl
  | cons hd _ ih =>
    simp only [List.map_cons, List.cons.injEq]
    exact ⟨by simp [hd.1, hd.2.1, hd.2.2], ih⟩

/-- C10 (witness): the concrete descriptor lists `descListA` and `descListB`
agree on times only, yet give the same windows. -/
theorem time_conversion_noninterference_c10_witness :
    List.Forall₂ (fun a b => a.time = b.time ∧ a.Tfade = b.Tfade ∧ a.Ttotal = b.Ttotal)
      descListA descListB ∧
    time_conversion descListA = time_conversion descListB :=
  ⟨List.Forall₂.cons ⟨rfl, rfl, rfl⟩ (List.Forall₂.cons ⟨rfl, rfl, rfl⟩ List.Forall₂.nil),
    time_conversion_noninterference_c10 _ _
      (List.Forall₂.cons ⟨rfl, rfl, rfl⟩ (List.Forall₂.cons ⟨rfl, rfl, rfl⟩ List.Forall₂.nil))⟩

/-- C4: on the five-valid-row input `frameC4`, the cleaning step inside
`find_derivatives` leaves exactly one row — fewer than 3 — yet `preprocess`
does not fail: it silently completes and returns a one-row "aligned" frame
(sample delay 0), with no error of any kind.  The source contains no
integrity check; the only failure mode it has is an uncaught library
exception, and none is triggered here. -/
theorem preprocess_silent_on_degenerate_input_c4 :
    (scaleStage 100 frameC4).map find_derivativesF = some frameC4mid ∧
    frameC4mid.t.length = 1 ∧
    preprocess 100 frameC4 = some { frameC4mid with t := [some 0] } := by
  have h1 : scaleStage 100 frameC4 = some frameC4s := by
    norm_num [frameC4, frameC4s, scaleStage, List.getD]
  have h2 : find_derivativesF frameC4s = frameC4mid := by
    norm_num [frameC4, frameC4s, frameC4mid, find_derivativesF, derivCol, derivEntry, cleanF,
      cleanRows, Frame.cols, List.range_succ, List.getD]
  have h3 : offsetStage frameC4mid = frameC4mid := by
    norm_num [frameC4mid, offsetStage, omean, mean, List.getD]
  have h4 : lagStage frameC4mid = some frameC4mid := by
    norm_num [frameC4mid, lagStage, shiftNeg, cleanF, cleanRows, Frame.cols, crossCorrFull,
      ccEntry, npArgmax, argmaxFrom, Finset.sum_range_succ, List.range_succ, List.getD]
  have h5 : rezeroStage frameC4mid = some { frameC4mid with t := [some 0] } := by
    norm_num [frameC4mid, rezeroStage, List.getD]
  refine ⟨by rw [h1]; simp only [Option.map_some']; rw [h2], rfl, ?_⟩
  rw [preprocess, h1, Option.some_bind, h2, h3, h4, Option.some_bind, h5]

lemma mem_find_zeroAux (l : List ℚ) : ∀ (p : ℚ) (k i : ℕ),
    i ∈ find_zeroAux p k l ↔
      ∃ j, i = k + j ∧ j < l.length ∧
        (if j = 0 then p else l.getD (j - 1) 0) * l.getD j 0 < 0 := by
  induction l with
  | nil => intro p k i; simp [find_zeroAux]
  | cons x rest ih =>
    intro p k i
    rw [find_zeroAux, List.mem_append]
    constructor
    · rintro (hmem | hmem)
      · by_cases hpx : p * x < 0
        · rw [if_pos hpx] at hmem
          simp only [List.mem_singleton] at hmem
          exact ⟨0, by omega, by simp, by simpa using hpx⟩
        · rw [if_neg hpx] at hmem
          simp at hmem
      · obtain ⟨j', hj1, hj2, hj3⟩ := (ih x (k + 1) i).mp hmem
        refine ⟨j' + 1, by omega, by simp; omega, ?_⟩
        rw [if_neg (Nat.succ_ne_zero j'), Nat.add_sub_cancel, List.getD_cons_succ]
        match j' with
        | 0 => simpa using hj3
        | m + 1 =>
          rw [List.getD_cons_succ]
          rw [if_neg (Nat.succ_ne_zero m), Nat.add_sub_cancel] at hj3
          exact hj3
    · rintro ⟨j, rfl, hj2, hj3⟩
      match j with
      | 0 =>
        left
        rw [if_pos (by simpa using hj3)]
        simp
      | j' + 1 =>
        right
        apply (ih x (k + 1) _).mpr
        refine ⟨j', by omega, by simpa using hj2, ?_⟩
        rw [if_neg (Nat.succ_ne_zero j'), Nat.add_sub_cancel, List.getD_cons_succ] at hj3
        match j' with
        | 0 => simpa using hj3
        | m + 1 =>
          rw [List.getD_cons_succ] at hj3
          rw [if_neg (Nat.succ_ne_zero m), Nat.add_sub_cancel]
          exact hj3

/-- The sign-change characterization of `find_zero`: index `i` is recorded
exactly when `1 ≤ i` and `vel_cmd[i-1] * vel_cmd[i] < 0` (the initial
`previous = 0` never records index 0, and an exact zero value never makes
a strictly negative product). -/
lemma mem_find_zero (vel_cmd : List ℚ) (i : ℕ) :
    i ∈ find_zero vel_cmd ↔
      1 ≤ i ∧ i < vel_cmd.length ∧ vel_cmd.getD (i - 1) 0 * vel_cmd.getD i 0 < 0 := by
  rw [find_zero, mem_find_zeroAux]
  constructor
  · rintro ⟨j, rfl, hj2, hj3⟩
    match j with
    | 0 => simp at hj3
    | m + 1 =>
      refine ⟨by omega, by simpa using hj2, ?_⟩
      simpa using hj3
  · rintro ⟨h1, h2, h3⟩
    refine ⟨i, by omega, h2, ?_⟩
    rw [if_neg (by omega)]
    exact h3

lemma createinterval_getD (vel_cmd : List ℚ) (j : ℕ)
    (hj : j + 2 < (find_zero vel_cmd).length) :
    (createinterval vel_cmd).getD j [] = List.range' ((find_zero vel_cmd).getD j 0)
      ((find_zero vel_cmd).getD (j + 2) 0 - (find_zero vel_cmd).getD j 0) := by
  simp only [createinterval]
  rw [List.getD_eq_getElem?_getD, List.getElem?_map, List.getElem?_range (by omega)]
  simp

lemma find_zero_velC6 : find_zero velC6 = [10, 40, 70, 100] := by
  norm_num [velC6, find_zero, find_zeroAux, List.replicate_succ]

lemma createinterval_velC6 : createinterval velC6 = [List.range' 10 60, List.range' 40 60] := by
  simp only [createinterval, find_zero_velC6]
  norm_num [List.range_succ, List.getD]

/-- C6: `find_zero` records index `i` exactly when
`vel_cmd[i-1] * vel_cmd[i] < 0` (an exact zero never yields a strictly
negative product, so it never triggers a crossing), `createinterval` forms
one index interval from each crossing to the crossing two positions later,
and the 130-sample commanded-velocity series `velC6` with sign changes at
indices `[10, 40, 70, 100]` yields exactly the two overlapping intervals
`[10, 70)` and `[40, 100)`. -/
theorem zero_crossing_fragmentation_c6 :
    (∀ (vel_cmd : List ℚ) (i : ℕ), i ∈ find_zero vel_cmd ↔
        1 ≤ i ∧ i < vel_cmd.length ∧ vel_cmd.getD (i - 1) 0 * vel_cmd.getD i 0 < 0) ∧
    (∀ (vel_cmd : List ℚ) (j : ℕ), j + 2 < (find_zero vel_cmd).length →
        (createinterval vel_cmd).getD j [] = List.range' ((find_zero vel_cmd).getD j 0)
          ((find_zero vel_cmd).getD (j + 2) 0 - (find_zero vel_cmd).getD j 0)) ∧
    find_zero velC6 = [10, 40, 70, 100] ∧
    createinterval velC6 = [List.range' 10 60, List.range' 40 60] :=
  ⟨mem_find_zero, createinterval_getD, find_zero_velC6, createinterval_velC6⟩

/-- C6 (witness): the interval formula of the theorem applied to the
concrete series `velC6` at crossing position 0. -/
theorem zero_crossing_fragmentation_c6_witness :
    (0 + 2 < (find_zero velC6).length) ∧
    (createinterval velC6).getD 0 [] = List.range' ((find_zero velC6).getD 0 0)
      ((find_zero velC6).getD (0 + 2) 0 - (find_zero velC6).getD 0 0) := by
  have hlen : 0 + 2 < (find_zero velC6).length := by
    rw [find_zero_velC6]
    norm_num
  exact ⟨hlen, zero_crossing_fragmentation_c6.2.1 velC6 0 hlen⟩

lemma maskFragAux_key_le (l : List Bool) : ∀ (i c : ℕ) (p : ℕ × ℕ),
    p ∈ maskFragAux i c l → c ≤ p.2 := by
  induction l with
  | nil => intro i c p hp; simp [maskFragAux] at hp
  | cons b rest ih =>
    intro i c p hp
    cases b with
    | false =>
      have : p ∈ maskFragAux (i + 1) (c + 1) rest := hp
      exact le_trans (Nat.le_succ c) (ih (i + 1) (c + 1) p this)
    | true =>
      have : p ∈ (i, c) :: maskFragAux (i + 1) c rest := hp
      rcases List.mem_cons.mp this with heq | hmem
      · rw [heq]
      · exact ih (i + 1) c p hmem

lemma gather_maskFragAux (l : List Bool) : ∀ (i c : ℕ),
    gather (maskFragAux i c l) = specRuns i l := by
  induction l with
  | nil => intro i c; rfl
  | cons b rest ih =>
    intro i c
    cases b with
    | false =>
      show gather (maskFragAux (i + 1) (c + 1) rest) = specRuns (i + 1) rest
      exact ih (i + 1) (c + 1)
    | true =>
      cases rest with
      | nil => rfl
      | cons b2 r2 =>
        cases b2 with
        | true =>
          have hIH : gather ((i + 1, c) :: maskFragAux (i + 2) c r2) =
              specRuns (i + 1) (true :: r2) := ih (i + 1) c
          show gather ((i, c) :: (i + 1, c) :: maskFragAux (i + 2) c r2) =
            specRuns i (true :: true :: r2)
          rw [gather, hIH]
          show (match specRuns (i + 1) (true :: r2) with
            | [] => [[i]]
            | g :: gs => if c = c then (i :: g) :: gs else [i] :: g :: gs) =
            (match specRuns (i + 1) (true :: r2) with
            | [] => [[i]]
            | g :: gs => (i :: g) :: gs)
          cases specRuns (i + 1) (true :: r2) with
          | nil => rfl
          | cons g gs => simp
        | false =>
          have hIH : gather (maskFragAux (i + 2) (c + 1) r2) = specRuns (i + 2) r2 :=
            ih (i + 1) c
          show gather ((i, c) :: maskFragAux (i + 2) (c + 1) r2) =
            [i] :: specRuns (i + 2) r2
          rcases hA : maskFragAux (i + 2) (c + 1) r2 with _ | ⟨⟨j, k2⟩, A2⟩
          · rw [hA] at hIH
            rw [gather, ← hIH]
            rfl
          · have hk2 : c + 1 ≤ k2 := by
              have : (j, k2) ∈ maskFragAux (i + 2) (c + 1) r2 := by
                rw [hA]; exact List.mem_cons_self _ _
              exact maskFragAux_key_le r2 (i + 2) (c + 1) (j, k2) this
            rw [hA] at hIH
            rw [gather, ← hIH]
            rcases hG : gather ((j, k2) :: A2) with _ | ⟨g, gs⟩
            · rfl
            · simp only []
              rw [if_neg (by omega)]

/-- C8: `fragment_by_mask` returns exactly the maximal runs of consecutive
true-mask rows, in source-index order: false rows appear in no fragment,
each unbroken run of true rows forms one fragment, and any false row
between true rows separates two fragments — grouping the true rows by the
cumulative count of false-mask rows (the source `(~mask).cumsum()`
group-by) coincides with the maximal-run decomposition `specRuns`; the
second conjunct grounds this on a concrete mask. -/
theorem fragment_by_mask_runs_c8 :
    (∀ mask : List Bool, fragment_by_mask mask = specRuns 0 mask) ∧
    fragment_by_mask [true, true, false, true, false, false, true] = [[0, 1], [3], [6]] := by
  constructor
  · intro mask
    exact gather_maskFragAux mask 0 0
  · norm_num [fragment_by_mask, maskFragAux, gather]

lemma chain_lt_weaken (rest : List ℕ) (u x : ℕ)
    (h : List.Chain (· < ·) u rest) (hx : x ≤ u) : List.Chain (· < ·) x rest := by
  cases rest with
  | nil => exact List.Chain.nil
  | cons v r =>
    obtain ⟨huv, hc⟩ := List.chain_cons.mp h
    exact List.chain_cons.mpr ⟨lt_of_le_of_lt hx huv, hc⟩

lemma chain_lt_range' : ∀ (m s : ℕ), List.Chain (· < ·) s (List.range' (s + 1) m) := by
  intro m
  induction m with
  | zero => intro s; exact List.Chain.nil
  | succ k ih =>
    intro s
    show List.Chain (· < ·) s ((s + 1) :: List.range' (s + 2) k)
    exact List.chain_cons.mpr ⟨Nat.lt_succ_self s, ih (s + 1)⟩

/-- Invariant of the `fragment_by_iteration` loop: provided every predicate
call on a nonempty window returns a lower bound inside the window, the
recorded fragments are well-formed intervals ending at or before the
running lower bound, pairwise disjoint, with total length at most the
running lower bound, and the running lower bound never exceeds the
processed upper bounds. -/
lemma fragment_loop_inv (func : ℕ → ℕ → ℕ × Bool)
    (Hf : ∀ l u, l < u → l ≤ (func l u).1 ∧ (func l u).1 ≤ u) :
    ∀ (us : List ℕ) (l : ℕ) (frags : List (ℕ × ℕ)),
      List.Chain (· < ·) l us →
      (∀ p ∈ frags, p.1 ≤ p.2 ∧ p.2 ≤ l) →
      List.Pairwise (fun p q => p.2 ≤ q.1) frags →
      (frags.map (fun p => p.2 - p.1)).sum ≤ l →
      (∀ p ∈ (us.foldl (fragStep func) (l, frags)).2,
          p.1 ≤ p.2 ∧ p.2 ≤ (us.foldl (fragStep func) (l, frags)).1) ∧
      List.Pairwise (fun p q => p.2 ≤ q.1) (us.foldl (fragStep func) (l, frags)).2 ∧
      ((us.foldl (fragStep func) (l, frags)).2.map (fun p => p.2 - p.1)).sum ≤
        (us.foldl (fragStep func) (l, frags)).1 ∧
      (∀ b, (∀ u ∈ us, u ≤ b) → l ≤ b → (us.foldl (fragStep func) (l, frags)).1 ≤ b) := by
  intro us
  induction us with
  | nil =>
    intro l frags _ hfr hpw hsum
    exact ⟨hfr, hpw, hsum, fun b _ hb => hb⟩
  | cons u rest ih =>
    intro l frags hch hfr hpw hsum
    rw [List.foldl_cons]
    have hlu : l < u := (List.chain_cons.mp hch).1
    have hchu : List.Chain (· < ·) u rest := (List.chain_cons.mp hch).2
    obtain ⟨hf1, hf2⟩ := Hf l u hlu
    by_cases hflag : (func l u).2
    · have hstep : fragStep func (l, frags) u = (u, frags ++ [((func l u).1, u)]) := by
        simp [fragStep, hflag]
      rw [hstep]
      have hfr2 : ∀ p ∈ frags ++ [((func l u).1, u)], p.1 ≤ p.2 ∧ p.2 ≤ u := by
        intro p hp
        rcases List.mem_append.mp hp with hp | hp
        · obtain ⟨h1, h2⟩ := hfr p hp
          exact ⟨h1, le_trans h2 (le_of_lt hlu)⟩
        · simp only [List.mem_singleton] at hp
          rw [hp]
          exact ⟨hf2, le_rfl⟩
      have hpw2 : List.Pairwise (fun p q => p.2 ≤ q.1) (frags ++ [((func l u).1, u)]) := by
        rw [List.pairwise_append]
        refine ⟨hpw, List.pairwise_singleton _ _, ?_⟩
        intro p hp q hq
        simp only [List.mem_singleton] at hq
        rw [hq]
        exact le_trans (hfr p hp).2 hf1
      have hsum2 : ((frags ++ [((func l u).1, u)]).map (fun p => p.2 - p.1)).sum ≤ u := by
        rw [List.map_append, List.sum_append]
        simp only [List.map_cons, List.map_nil, List.sum_cons, List.sum_nil]
        omega
      obtain ⟨A, B, C, D⟩ := ih u (frags ++ [((func l u).1, u)])
        (chain_lt_weaken rest u u hchu le_rfl) hfr2 hpw2 hsum2
      refine ⟨A, B, C, fun b hb hlb => ?_⟩
      exact D b (fun z hz => hb z (List.mem_cons_of_mem u hz)) (hb u (List.mem_cons_self u rest))
    · have hstep : fragStep func (l, frags) u = ((func l u).1, frags) := by
        simp [fragStep, hflag]
      rw [hstep]
      obtain ⟨A, B, C, D⟩ := ih (func l u).1 frags
        (chain_lt_weaken rest u (func l u).1 hchu hf2)
        (fun p hp => ⟨(hfr p hp).1, le_trans (hfr p hp).2 hf1⟩) hpw (le_trans hsum hf1)
      refine ⟨A, B, C, fun b hb hlb => ?_⟩
      exact D b (fun z hz => hb z (List.mem_cons_of_mem u hz))
        (le_trans hf2 (hb u (List.mem_cons_self u rest)))

/-- C7: for every dense-0-based-indexed frame of `n` rows and every
predicate that returns a new lower bound within the current window,
`fragment_by_iteration` — whose loop terminates because the upper bound
advances by exactly one per iteration until it exceeds the last valid
index `n - 1` — splits the window into a fragment exactly when the
predicate flag is true, restarting the next window at the old upper
bound (last conjunct, the characterization of the loop body); the resulting
fragments are well-formed windows within the index range, pairwise
disjoint in source index and in non-decreasing start order (each fragment
ends at or before the next one starts), and their total row count is at
most the row count `n` of the input. -/
theorem fragment_by_iteration_invariants_c7 (func : ℕ → ℕ → ℕ × Bool) (n : ℕ)
    (Hf : ∀ l u, l < u → l ≤ (func l u).1 ∧ (func l u).1 ≤ u) :
    (∀ p ∈ fragment_by_iteration func n, p.1 ≤ p.2 ∧ p.2 ≤ n - 1) ∧
    List.Pairwise (fun p q => p.2 ≤ q.1) (fragment_by_iteration func n) ∧
    ((fragment_by_iteration func n).map (fun p => p.2 - p.1)).sum ≤ n ∧
    (∀ (l u : ℕ) (frs : List (ℕ × ℕ)), fragStep func (l, frs) u =
      if (func l u).2 then (u, frs ++ [((func l u).1, u)]) else ((func l u).1, frs)) := by
  obtain ⟨A, B, C, D⟩ := fragment_loop_inv func Hf (List.range' 1 (n - 1)) 0 []
    (chain_lt_range' (n - 1) 0) (by simp) (by simp) (by simp)
  have hfinal : ((List.range' 1 (n - 1)).foldl (fragStep func) (0, [])).1 ≤ n - 1 := by
    apply D
    · intro u hu
      rw [List.mem_range'_1] at hu
      omega
    · exact Nat.zero_le _
  refine ⟨fun p hp => ⟨(A p hp).1, le_trans (A p hp).2 hfinal⟩, B,
    le_trans C (le_trans hfinal (Nat.sub_le n 1)), fun l u frs => ?_⟩
  by_cases h : (func l u).2 <;> simp [fragStep, h]

/-- C7 (witness): the invariants instantiated on the predicate
`splitEvery3` and a ten-row frame. -/
theorem fragment_by_iteration_invariants_c7_witness :
    (∀ l u : ℕ, l < u → l ≤ (splitEvery3 l u).1 ∧ (splitEvery3 l u).1 ≤ u) ∧
    (∀ p ∈ fragment_by_iteration splitEvery3 10, p.1 ≤ p.2 ∧ p.2 ≤ 10 - 1) ∧
    List.Pairwise (fun p q => p.2 ≤ q.1) (fragment_by_iteration splitEvery3 10) ∧
    ((fragment_by_iteration splitEvery3 10).map (fun p => p.2 - p.1)).sum ≤ 10 := by
  have hf : ∀ l u : ℕ, l < u → l ≤ (splitEvery3 l u).1 ∧ (splitEvery3 l u).1 ≤ u := by
    intro l u h
    exact ⟨le_rfl, le_of_lt h⟩
  obtain ⟨A, B, C, _⟩ := fragment_by_iteration_invariants_c7 splitEvery3 10 hf
  exact ⟨hf, A, B, C⟩

lemma getD_map_opt (f : ℚ → ℚ) (x : List (Option ℚ)) (j : ℕ) :
    (x.map (Option.map f)).getD j none = Option.map f (x.getD j none) := by
  rcases lt_or_ge j x.length with hj | hj
  · rw [List.getD_eq_getElem?_getD, List.getElem?_map, List.getD_eq_getElem?_getD,
      List.getElem?_eq_getElem hj]
    simp
  · rw [List.getD_eq_default _ _ (by simpa using hj), List.getD_eq_default _ _ hj]
    rfl

lemma derivCol_formula (x y : List (Option ℚ)) (i : ℕ) (x0 x2 y0 y2 : ℚ)
    (h1 : 1 ≤ i) (h2 : i + 1 < y.length)
    (hx0 : x.getD (i - 1) none = some x0) (hx2 : x.getD (i + 1) none = some x2)
    (hy0 : y.getD (i - 1) none = some y0) (hy2 : y.getD (i + 1) none = some y2)
    (hden : x2 - x0 ≠ 0) :
    (derivCol x y).getD i none = some ((y2 - y0) / (x2 - x0)) := by
  rw [derivCol, List.getD_eq_getElem?_getD, List.getElem?_map, List.getElem?_range (by omega)]
  simp only [Option.map_some', Option.getD_some]
  rw [derivEntry, if_pos ⟨h1, h2⟩, hx2, hx0, hy2, hy0]
  show (if x2 - x0 = 0 then none else some ((y2 - y0) / (x2 - x0))) =
    some ((y2 - y0) / (x2 - x0))
  rw [if_neg hden]

lemma derivCol_first (x y : List (Option ℚ)) : (derivCol x y).getD 0 none = none := by
  rcases Nat.eq_zero_or_pos y.length with h | h
  · apply List.getD_eq_default
    simp [derivCol, h]
  · rw [derivCol, List.getD_eq_getElem?_getD, List.getElem?_map, List.getElem?_range h]
    simp only [Option.map_some', Option.getD_some]
    rw [derivEntry, if_neg (by omega)]

lemma derivCol_last (x y : List (Option ℚ)) (h : 0 < y.length) :
    (derivCol x y).getD (y.length - 1) none = none := by
  rw [derivCol, List.getD_eq_getElem?_getD, List.getElem?_map, List.getElem?_range (by omega)]
  simp only [Option.map_some', Option.getD_some]
  rw [derivEntry, if_neg (by omega)]

lemma derivCol_ramp_interior (x : List (Option ℚ)) (k : ℚ)
    (valid : ∀ i < x.length, (x.getD i none).isSome = true)
    (mono : ∀ i j, i < j → j < x.length → (x.getD i none).getD 0 < (x.getD j none).getD 0)
    (i : ℕ) (h1 : 1 ≤ i) (h2 : i + 1 < x.length) :
    (derivCol x (x.map (Option.map (k * ·)))).getD i none = some k := by
  obtain ⟨x0, hx0⟩ := Option.isSome_iff_exists.mp (valid (i - 1) (by omega))
  obtain ⟨x2, hx2⟩ := Option.isSome_iff_exists.mp (valid (i + 1) h2)
  have hy0 : (x.map (Option.map (k * ·))).getD (i - 1) none = some (k * x0) := by
    rw [getD_map_opt, hx0]
    rfl
  have hy2 : (x.map (Option.map (k * ·))).getD (i + 1) none = some (k * x2) := by
    rw [getD_map_opt, hx2]
    rfl
  have hlt : x0 < x2 := by
    have := mono (i - 1) (i + 1) (by omega) h2
    rw [hx0, hx2] at this
    simpa using this
  have hden : x2 - x0 ≠ 0 := sub_ne_zero.mpr (ne_of_gt hlt)
  rw [derivCol_formula x _ i x0 x2 (k * x0) (k * x2) h1 (by simpa using h2) hx0 hx2 hy0 hy2 hden]
  congr 1
  rw [← mul_sub, mul_div_assoc, div_self hden, mul_one]

lemma cleanRows_ramp (x : List (Option ℚ)) (k : ℚ) (hn : 5 ≤ x.length)
    (valid : ∀ i < x.length, (x.getD i none).isSome = true)
    (mono : ∀ i j, i < j → j < x.length → (x.getD i none).getD 0 < (x.getD j none).getD 0) :
    cleanRows [x, x.map (Option.map (k * ·)), derivCol x (x.map (Option.map (k * ·)))]
      x.length = List.range' 1 (x.length - 2) := by
  set y := x.map (Option.map (k * ·)) with hy
  have hyl : y.length = x.length := by rw [hy, List.length_map]
  have hsplit : List.range x.length =
      List.range' 0 1 ++ List.range' 1 (x.length - 2) ++ List.range' (x.length - 1) 1 := by
    have e1 : List.range' 0 1 ++ List.range' 1 (x.length - 2) =
        List.range' 0 (x.length - 1) := by
      have := List.range'_append_1 0 1 (x.length - 2)
      rw [this]
      congr 1
      omega
    have e2 : List.range' 0 (x.length - 1) ++ List.range' (x.length - 1) 1 =
        List.range' 0 x.length := by
      have := List.range'_append_1 0 (x.length - 1) 1
      simp only [Nat.zero_add] at this
      rw [this]
      congr 1
      omega
    rw [List.range_eq_range', ← e2, ← e1]
  rw [cleanRows, hsplit, List.filter_append, List.filter_append]
  have h0 : List.filter
      (fun i => ([x, y, derivCol x y]).all (fun c => (c.getD i none).isSome)) (List.range' 0 1)
      = [] := by
    have hd : ((derivCol x y)[(0 : ℕ)]?.getD none).isSome = false := by
      rw [← List.getD_eq_getElem?_getD, derivCol_first x y]
      rfl
    simp [List.filter, hd]
  have hlast : List.filter
      (fun i => ([x, y, derivCol x y]).all (fun c => (c.getD i none).isSome))
      (List.range' (x.length - 1) 1) = [] := by
    have hd : ((derivCol x y)[x.length - 1]?.getD none).isSome = false := by
      rw [← List.getD_eq_getElem?_getD]
      have := derivCol_last x y (by omega)
      rw [hyl] at this
      rw [this]
      rfl
    simp [List.filter, hd]
  have hmid : List.filter
      (fun i => ([x, y, derivCol x y]).all (fun c => (c.getD i none).isSome))
      (List.range' 1 (x.length - 2)) = List.range' 1 (x.length - 2) := by
    apply List.filter_eq_self.mpr
    intro i hi
    rw [List.mem_range'_1] at hi
    have h1 : 1 ≤ i := hi.1
    have h2 : i + 1 < x.length := by omega
    have hxv : (x.getD i none).isSome = true := valid i (by omega)
    have hyv : (y.getD i none).isSome = true := by
      rw [hy, getD_map_opt]
      obtain ⟨a, ha⟩ := Option.isSome_iff_exists.mp hxv
      rw [ha]
      rfl
    have hdv : ((derivCol x y).getD i none).isSome = true := by
      rw [hy, derivCol_ramp_interior x k valid mono i h1 h2]
      rfl
    simp only [List.all_cons, List.all_nil, Bool.and_eq_true, and_true]
    exact ⟨hxv, hyv, hdv⟩
  rw [h0, hmid, hlast, List.nil_append, List.append_nil]

/-- C3: the derivative operation is the central difference — at each
interior index `i` the new column is `(y[i+1] - y[i-1]) / (x[i+1] - x[i-1])`
(first conjunct, for arbitrary columns), the two boundary rows evaluate to
missing and are removed by the subsequent clean, and on a linear ramp
`y = k * x` over a strictly increasing `x` with at least 5 valid rows the
resulting column equals `k` at every interior row while exactly the first
and last rows are lost (the surviving row labels are `1, …, n - 2`). -/
theorem derivative_central_difference_c3 :
    (∀ (x y : List (Option ℚ)) (i : ℕ) (x0 x2 y0 y2 : ℚ),
        1 ≤ i → i + 1 < y.length →
        x.getD (i - 1) none = some x0 → x.getD (i + 1) none = some x2 →
        y.getD (i - 1) none = some y0 → y.getD (i + 1) none = some y2 →
        x2 - x0 ≠ 0 →
        (derivCol x y).getD i none = some ((y2 - y0) / (x2 - x0))) ∧
    (∀ (x : List (Option ℚ)) (k : ℚ),
        5 ≤ x.length →
        (∀ i < x.length, (x.getD i none).isSome = true) →
        (∀ i j, i < j → j < x.length →
          (x.getD i none).getD 0 < (x.getD j none).getD 0) →
        (∀ i, 1 ≤ i → i + 1 < x.length →
          (derivCol x (x.map (Option.map (k * ·)))).getD i none = some k) ∧
        (derivCol x (x.map (Option.map (k * ·)))).getD 0 none = none ∧
        (derivCol x (x.map (Option.map (k * ·)))).getD (x.length - 1) none = none ∧
        cleanRows [x, x.map (Option.map (k * ·)),
          derivCol x (x.map (Option.map (k * ·)))] x.length =
          List.range' 1 (x.length - 2)) := by
  constructor
  · exact derivCol_formula
  · intro x k hn valid mono
    refine ⟨derivCol_ramp_interior x k valid mono, derivCol_first _ _, ?_,
      cleanRows_ramp x k hn valid mono⟩
    have := derivCol_last x (x.map (Option.map (k * ·))) (by simp; omega)
    rwa [List.length_map] at this

/-- C3 (witness): the ramp part of the theorem applied to `xRampC3` with
slope `k = 3`: the interior derivative is `3` and the clean keeps exactly
rows 1 to 3. -/
theorem derivative_central_difference_c3_witness :
    (∀ i j, i < j → j < xRampC3.length →
      (xRampC3.getD i none).getD 0 < (xRampC3.getD j none).getD 0) ∧
    (derivCol xRampC3 (xRampC3.map (Option.map ((3 : ℚ) * ·)))).getD 2 none = some 3 ∧
    cleanRows [xRampC3, xRampC3.map (Option.map ((3 : ℚ) * ·)),
      derivCol xRampC3 (xRampC3.map (Option.map ((3 : ℚ) * ·)))] xRampC3.length =
      List.range' 1 (xRampC3.length - 2) := by
  have hval : ∀ i < xRampC3.length, (xRampC3.getD i none).isSome = true := by
    intro i hi
    simp only [xRampC3, List.length_cons, List.length_nil] at hi
    interval_cases i <;> rfl
  have hmono : ∀ i j, i < j → j < xRampC3.length →
      (xRampC3.getD i none).getD 0 < (xRampC3.getD j none).getD 0 := by
    intro i j hij hj
    simp only [xRampC3, List.length_cons, List.length_nil] at hj
    interval_cases j <;> interval_cases i <;> norm_num [xRampC3, List.getD]
  obtain ⟨A, _, _, D⟩ := derivative_central_difference_c3.2 xRampC3 3
    (by norm_num [xRampC3]) hval hmono
  exact ⟨hmono, A 2 (by norm_num) (by norm_num [xRampC3]), D⟩
